import Mathlib

/-!
# MedTracker — verification of the reminder / analytics core

Shallow embedding of the MedTracker repository (client `src/App.tsx`,
server `server.ts` and its two earlier server variants) and proofs about
the reminder engine, the snooze operation, the analytics aggregation and
the per-user scoping of the REST layer.

Modelling conventions:
* Local wall-clock instants are modelled as a calendar-day index plus the
  millisecond offset inside that day.  The `yyyy-MM-dd` date string of an
  instant is represented by its `day` field and the `HH:mm` string by the
  (hour, minute) pair `minuteOf`; equality of the well-formed strings
  coincides with equality of the decoded values.
* `snoozed_until` is only ever consumed through `parseISO(...) > now`,
  i.e. as an absolute instant, so it is stored as epoch milliseconds
  (`Int`, since a negative snooze duration may move it before the epoch).
* JS string statuses stay `String`; JS numeric ids become `Nat`.
-/

namespace MedTracker

/-- A local wall-clock instant: calendar day index and milliseconds into
that day (`new Date` values are only ever consumed at this resolution). -/
structure Instant where
  day : Nat
  msOfDay : Nat
deriving DecidableEq, Repr

/-- Absolute epoch milliseconds of an instant (`Date.prototype.getTime`). -/
def Instant.msInt (t : Instant) : Int :=
  (t.day : Int) * 86400000 + (t.msOfDay : Int)

/-- The `(hour, minute)` pair shown by `format(now, 'HH:mm')`. -/
def minuteOf (t : Instant) : Nat × Nat :=
  (t.msOfDay / 60000 / 60, t.msOfDay / 60000 % 60)

/-- A `Medicine` row (mongoose `medicineSchema` / sqlite `medicines`).
`reminder_time` is the decoded `"HH:mm"` string; `snoozed_until` the
decoded ISO timestamp in epoch milliseconds. -/
structure Medicine where
  id : Nat
  user_id : Nat
  name : String
  dosage : String
  frequency : String
  time_of_day : Option String
  start_date : Option String
  end_date : Option String
  instructions : Option String
  snoozed_until : Option Int
  reminder_time : Option (Nat × Nat)
deriving DecidableEq, Repr

/-- A `DoseLog` row (mongoose `logSchema` / sqlite `logs`). -/
structure DoseLog where
  id : Nat
  medicine_id : Nat
  user_id : Nat
  taken_at : Instant
  status : String
deriving DecidableEq, Repr

/-! ## Reminder engine (`checkReminders`, `src/App.tsx`)

The fired-marker map `lastRemindedRef` is keyed by the string
`` `${med.id}-${todayStr}-${currentTimeStr}` ``; the key is represented
by the decoded triple. -/

/-- The composite fired key `(medicine id, date, HH:mm)`. -/
abbrev ReminderKey := Nat × Nat × (Nat × Nat)

/-- `reminderKey` for a medicine at the tick instant. -/
def reminderKey (med : Medicine) (now : Instant) : ReminderKey :=
  (med.id, now.day, minuteOf now)

/-- `isTakenToday`: the first log found for the medicine has a `taken_at`
on the current local date (`logs.find(...)` + `isSameDay`). -/
def isTakenToday (logs : List DoseLog) (med : Medicine) (now : Instant) : Bool :=
  match logs.find? (fun l => l.medicine_id == med.id) with
  | some l => l.taken_at.day == now.day
  | none => false

/-- `isSnoozed`: `med.snoozed_until && parseISO(med.snoozed_until) > now`. -/
def isSnoozed (med : Medicine) (now : Instant) : Bool :=
  match med.snoozed_until with
  | some s => decide (now.msInt < s)
  | none => false

/-- The guard of the firing branch in `checkReminders`: a non-null
reminder time, not taken today, not snoozed, exact minute match, and the
composite key not yet marked fired. -/
def shouldFire (now : Instant) (logs : List DoseLog) (fired : List ReminderKey)
    (med : Medicine) : Bool :=
  match med.reminder_time with
  | none => false
  | some hm =>
    !(isTakenToday logs med now) && !(isSnoozed med now)
      && decide (hm = minuteOf now) && !(decide (reminderKey med now ∈ fired))

/-- One polling tick of `checkReminders`: walk the medicines in order;
whenever the guard holds, record the fired key (this happens before any
effect) and emit the medicine as a fired event.  Returns the updated
fired-key set and the list of medicines that fired on this tick. -/
def checkReminders (now : Instant) (logs : List DoseLog) :
    List Medicine → List ReminderKey → List ReminderKey × List Medicine
  | [], fired => (fired, [])
  | med :: rest, fired =>
    if shouldFire now logs fired med then
      let r := checkReminders now logs rest (reminderKey med now :: fired)
      (r.1, med :: r.2)
    else
      checkReminders now logs rest fired

/-! ### Reminder-engine lemmas -/

/-- A firing guard implies the composite key was not yet marked. -/
lemma shouldFire_key_not_mem {now : Instant} {logs : List DoseLog}
    {fired : List ReminderKey} {med : Medicine}
    (h : shouldFire now logs fired med = true) : reminderKey med now ∉ fired := by
  unfold shouldFire at h
  cases hrt : med.reminder_time with
  | none => simp [hrt] at h
  | some hm =>
    rw [hrt] at h
    simp only [Bool.and_eq_true, Bool.not_eq_true', decide_eq_false_iff_not] at h
    exact h.2

/-- A firing guard implies the medicine is not snoozed at the tick. -/
lemma shouldFire_not_snoozed {now : Instant} {logs : List DoseLog}
    {fired : List ReminderKey} {med : Medicine}
    (h : shouldFire now logs fired med = true) : isSnoozed med now = false := by
  unfold shouldFire at h
  cases hrt : med.reminder_time with
  | none => simp [hrt] at h
  | some hm =>
    rw [hrt] at h
    simp only [Bool.and_eq_true, Bool.not_eq_true'] at h
    exact h.1.1.2

/-- Keys already marked fired survive a tick. -/
lemma mem_fired_checkReminders (now : Instant) (logs : List DoseLog)
    (meds : List Medicine) (fired : List ReminderKey) (k : ReminderKey)
    (hk : k ∈ fired) : k ∈ (checkReminders now logs meds fired).1 := by
  induction meds generalizing fired with
  | nil => simpa [checkReminders] using hk
  | cons med rest ih =>
    by_cases h : shouldFire now logs fired med = true
    · simp only [checkReminders, h, if_true]
      exact ih _ (List.mem_cons_of_mem _ hk)
    · simp only [checkReminders, h, if_false, Bool.false_eq_true]
      exact ih _ hk

/-- If the key for id `i` at the current (date, minute) is already marked,
no medicine with id `i` fires during the tick. -/
lemma not_fires_of_key_marked (now : Instant) (logs : List DoseLog)
    (meds : List Medicine) (fired : List ReminderKey) (i : Nat)
    (hk : (i, now.day, minuteOf now) ∈ fired) :
    ∀ m ∈ (checkReminders now logs meds fired).2, m.id ≠ i := by
  induction meds generalizing fired with
  | nil => simp [checkReminders]
  | cons med rest ih =>
    by_cases h : shouldFire now logs fired med = true
    · intro m hm
      simp only [checkReminders, h, if_true, List.mem_cons] at hm
      rcases hm with rfl | hm
      · intro hid
        apply shouldFire_key_not_mem h
        rw [reminderKey, hid]
        exact hk
      · exact ih _ (List.mem_cons_of_mem _ hk) m hm
    · intro m hm
      simp only [checkReminders, h, if_false, Bool.false_eq_true] at hm
      exact ih _ hk m hm

/-- Within a single tick, a given medicine id fires at most once: the key
is recorded before the walk continues, blocking any later duplicate. -/
lemma count_fires_le_one (now : Instant) (logs : List DoseLog)
    (meds : List Medicine) (fired : List ReminderKey) (i : Nat) :
    ((checkReminders now logs meds fired).2.map Medicine.id).count i ≤ 1 := by
  induction meds generalizing fired with
  | nil => simp [checkReminders]
  | cons med rest ih =>
    by_cases h : shouldFire now logs fired med = true
    · simp only [checkReminders, h, if_true, List.map_cons]
      by_cases hid : med.id = i
      · have hzero :
            ((checkReminders now logs rest (reminderKey med now :: fired)).2.map
              Medicine.id).count i = 0 := by
          rw [List.count_eq_zero]
          intro hmem
          rcases List.mem_map.mp hmem with ⟨m, hm, hmi⟩
          exact not_fires_of_key_marked now logs rest (reminderKey med now :: fired) i
            (by rw [reminderKey, hid] at *; exact List.mem_cons_self _ _) m hm hmi
        rw [List.count_cons, hzero]
        simp [hid]
      · have hbeq : (med.id == i) = false := beq_eq_false_iff_ne.mpr hid
        rw [List.count_cons, hbeq]
        simpa using ih (reminderKey med now :: fired)
    · simp only [checkReminders, h, if_false, Bool.false_eq_true]
      exact ih fired

/-- The firing guard evaluates to true under the claim's hypotheses. -/
lemma shouldFire_of_due (now : Instant) (logs : List DoseLog)
    (fired : List ReminderKey) (med : Medicine)
    (hrt : med.reminder_time = some (minuteOf now))
    (hlog : ∀ l ∈ logs, l.medicine_id = med.id → l.taken_at.day ≠ now.day)
    (hsn : ∀ s, med.snoozed_until = some s → s ≤ now.msInt)
    (hkey : (med.id, now.day, minuteOf now) ∉ fired) :
    shouldFire now logs fired med = true := by
  unfold shouldFire
  rw [hrt]
  have htaken : isTakenToday logs med now = false := by
    unfold isTakenToday
    cases hfind : logs.find? (fun l => l.medicine_id == med.id) with
    | none => rfl
    | some l =>
      have hl : l ∈ logs := List.mem_of_find?_eq_some hfind
      have hlp := List.find?_some hfind
      have hid : l.medicine_id = med.id := by simpa using hlp
      have hday : l.taken_at.day ≠ now.day := hlog l hl hid
      simpa using hday
  have hsnooze : isSnoozed med now = false := by
    unfold isSnoozed
    cases hs : med.snoozed_until with
    | none => rfl
    | some s =>
      have := hsn s hs
      simp [not_lt.mpr this]
  simp [htaken, hsnooze, reminderKey, hkey]

/-- Under the claim's hypotheses — non-null matching reminder time, no
dose logged on the current date, no active snooze, key not yet fired — a
medicine in the snapshot fires during the tick. -/
lemma fires_mem (now : Instant) (logs : List DoseLog) (med : Medicine)
    (hrt : med.reminder_time = some (minuteOf now))
    (hlog : ∀ l ∈ logs, l.medicine_id = med.id → l.taken_at.day ≠ now.day)
    (hsn : ∀ s, med.snoozed_until = some s → s ≤ now.msInt) :
    ∀ (meds : List Medicine) (fired : List ReminderKey), med ∈ meds →
      (med.id, now.day, minuteOf now) ∉ fired →
      med.id ∈ (checkReminders now logs meds fired).2.map Medicine.id := by
  intro meds
  induction meds with
  | nil => intro fired h; cases h
  | cons hd rest ih =>
    intro fired hmem hkey
    rcases List.mem_cons.mp hmem with rfl | hmem'
    · -- the medicine itself is at the head: the guard evaluates to true
      have hfire : shouldFire now logs fired med = true :=
        shouldFire_of_due now logs fired med hrt hlog hsn hkey
      simp only [checkReminders, hfire, if_true, List.map_cons]
      exact List.mem_cons_self _ _
    · by_cases h : shouldFire now logs fired hd = true
      · simp only [checkReminders, h, if_true, List.map_cons]
        by_cases hid : hd.id = med.id
        · rw [hid]; exact List.mem_cons_self _ _
        · apply List.mem_cons_of_mem
          refine ih _ hmem' ?_
          intro hk
          rcases List.mem_cons.mp hk with heq | hk'
          · rw [reminderKey] at heq
            simp only [Prod.mk.injEq] at heq
            exact hid heq.1.symm
          · exact hkey hk'
      · simp only [checkReminders, h, if_false, Bool.false_eq_true]
        exact ih fired hmem' hkey

/-- Every medicine id that fired has its composite key recorded in the
resulting fired-key set. -/
lemma key_marked_of_fires (now : Instant) (logs : List DoseLog)
    (meds : List Medicine) (fired : List ReminderKey) (i : Nat)
    (h : i ∈ (checkReminders now logs meds fired).2.map Medicine.id) :
    (i, now.day, minuteOf now) ∈ (checkReminders now logs meds fired).1 := by
  induction meds generalizing fired with
  | nil => simp [checkReminders] at h
  | cons med rest ih =>
    by_cases hf : shouldFire now logs fired med = true
    · simp only [checkReminders, hf, if_true, List.map_cons, List.mem_cons] at h ⊢
      rcases h with rfl | h
      · exact mem_fired_checkReminders now logs rest _ _ (List.mem_cons_self _ _)
      · exact ih _ h
    · simp only [checkReminders, hf, if_false, Bool.false_eq_true] at h ⊢
      exact ih _ h

/-- Every medicine that fires is un-snoozed at the tick. -/
lemma fired_not_snoozed (now : Instant) (logs : List DoseLog)
    (meds : List Medicine) (fired : List ReminderKey) :
    ∀ m ∈ (checkReminders now logs meds fired).2, isSnoozed m now = false := by
  induction meds generalizing fired with
  | nil => simp [checkReminders]
  | cons med rest ih =>
    by_cases hf : shouldFire now logs fired med = true
    · intro m hm
      simp only [checkReminders, hf, if_true, List.mem_cons] at hm
      rcases hm with rfl | hm
      · exact shouldFire_not_snoozed hf
      · exact ih _ m hm
    · intro m hm
      simp only [checkReminders, hf, if_false, Bool.false_eq_true] at hm
      exact ih _ m hm

/-- **C1.** For every medicine with a non-null reminder time, no dose
logged on the current date, and no active snooze, when the polling tick's
current minute equals the medicine's reminder time, the reminder fires
exactly once; a second tick in the same (medicine, date, minute) does not
fire again, because the composite fired-key is recorded before any
effects. -/
theorem reminder_fires_exactly_once_per_minute
    (now : Instant) (meds : List Medicine) (logs : List DoseLog)
    (fired : List ReminderKey) (med : Medicine)
    (hmem : med ∈ meds)
    (hrt : med.reminder_time = some (minuteOf now))
    (hlog : ∀ l ∈ logs, l.medicine_id = med.id → l.taken_at.day ≠ now.day)
    (hsn : ∀ s, med.snoozed_until = some s → s ≤ now.msInt)
    (hkey : (med.id, now.day, minuteOf now) ∉ fired) :
    ((checkReminders now logs meds fired).2.map Medicine.id).count med.id = 1
    ∧ ((checkReminders now logs meds
          (checkReminders now logs meds fired).1).2.map Medicine.id).count med.id = 0 := by
  have hm : med.id ∈ (checkReminders now logs meds fired).2.map Medicine.id :=
    fires_mem now logs med hrt hlog hsn meds fired hmem hkey
  constructor
  · have h1 : 0 < ((checkReminders now logs meds fired).2.map Medicine.id).count med.id :=
      List.count_pos_iff.mpr hm
    have h2 := count_fires_le_one now logs meds fired med.id
    omega
  · have hkey1 : (med.id, now.day, minuteOf now) ∈ (checkReminders now logs meds fired).1 :=
      key_marked_of_fires now logs meds fired med.id hm
    rw [List.count_eq_zero]
    intro hmem2
    rcases List.mem_map.mp hmem2 with ⟨m, hm2, hmi⟩
    exact not_fires_of_key_marked now logs meds _ med.id hkey1 m hm2 hmi

def medC1 : Medicine :=
  ⟨1, 1, "Lisinopril", "10mg", "Daily", none, none, none, none, none, some (8, 0)⟩

def nowC1 : Instant := ⟨737, 480 * 60000⟩

/-- Witness for C1 at a concrete tick: `08:00` exactly matches the
reminder time, no logs, nothing fired yet. -/
theorem reminder_fires_exactly_once_per_minute_witness :
    ((checkReminders nowC1 [] [medC1] []).2.map Medicine.id).count medC1.id = 1
    ∧ ((checkReminders nowC1 [] [medC1]
          (checkReminders nowC1 [] [medC1] []).1).2.map Medicine.id).count medC1.id = 0 :=
  reminder_fires_exactly_once_per_minute nowC1 [medC1] [] [] medC1
    (by decide) (by decide) (by decide) (by simp [medC1]) (by decide)

/-- **C2.** A medicine whose `snoozed_until` timestamp is strictly in the
future at tick time never fires on that tick, even when the reminder time
matches the current minute and no dose was logged today. -/
theorem snoozed_medicine_never_fires
    (now : Instant) (meds : List Medicine) (logs : List DoseLog)
    (fired : List ReminderKey) (med : Medicine) (s : Int)
    (hsn : med.snoozed_until = some s) (hfut : now.msInt < s) :
    med ∉ (checkReminders now logs meds fired).2 := by
  intro hm
  have hns := fired_not_snoozed now logs meds fired med hm
  rw [isSnoozed, hsn] at hns
  simp [hfut] at hns

def medC2 : Medicine :=
  ⟨2, 1, "Metformin", "500mg", "Daily", none, none, none, none,
    some ((737 : Int) * 86400000 + 500 * 60000), some (8, 0)⟩

/-- Witness for C2: the medicine is snoozed until 08:20 of the same day;
at the 08:00 tick, with a matching reminder time and no logs, it does
not fire. -/
theorem snoozed_medicine_never_fires_witness :
    medC2 ∉ (checkReminders nowC1 [] [medC2] []).2 :=
  snoozed_medicine_never_fires nowC1 [medC2] [] [] medC2
    ((737 : Int) * 86400000 + 500 * 60000) (by decide) (by decide)

/-! ## Analytics aggregation (`GET /api/analytics`)

`server.ts` (mongoose variant) groups the user's logs in JS with a `Map`
keyed by the date portion of `taken_at`, sorts the values ascending by
date and applies `.slice(-30)`.  The `better-sqlite3` variant
(`src/unnamed/part_001`) groups with `GROUP BY date(taken_at) ORDER BY
date ASC LIMIT 30`.  A JS `Map` preserves first-insertion order; since
each date occurs once among the grouped values, the final
`localeCompare` sort (equivalently SQL's `ORDER BY date ASC` on ISO date
strings) determines the output order uniquely, so any comparison sort
models it. -/

/-- One entry of the daily completion series. -/
structure DayStat where
  date : Nat
  total : Nat
  taken : Nat
deriving DecidableEq, Repr

/-- Process one log into the stats map: create the date's entry on first
sight, then increment `total` and, for a `'taken'` log, `taken`. -/
def upsertStat (day : Nat) (isTakenLog : Bool) : List DayStat → List DayStat
  | [] => [⟨day, 1, if isTakenLog then 1 else 0⟩]
  | s :: rest =>
    if s.date = day then
      ⟨s.date, s.total + 1, s.taken + (if isTakenLog then 1 else 0)⟩ :: rest
    else
      s :: upsertStat day isTakenLog rest

/-- The `statsMap` fold over the user's logs, in log order. -/
def groupByDate (logs : List DoseLog) : List DayStat :=
  logs.foldl (fun acc log => upsertStat log.taken_at.day (log.status == "taken") acc) []

/-- Insert into a date-ascending list. -/
def insertAscByDate (s : DayStat) : List DayStat → List DayStat
  | [] => [s]
  | t :: rest => if s.date ≤ t.date then s :: t :: rest else t :: insertAscByDate s rest

/-- Ascending sort by date (`sort((a, b) => a.date.localeCompare(b.date))`
on distinct ISO date keys). -/
def sortAscByDate (l : List DayStat) : List DayStat := l.foldr insertAscByDate []

/-- `GET /api/analytics` of the mongoose server: group, sort ascending,
`.slice(-30)` (the most recent 30 entries). -/
def analyticsStats (logs : List DoseLog) : List DayStat :=
  let sorted := sortAscByDate (groupByDate logs)
  sorted.drop (sorted.length - 30)

/-- `GET /api/analytics` of the sqlite variant: the same grouped counts,
`ORDER BY date ASC LIMIT 30` (the first, i.e. oldest, 30 rows). -/
def analyticsStatsSqlite (logs : List DoseLog) : List DayStat :=
  (sortAscByDate (groupByDate logs)).take 30

/-- 31 single-dose days: one `'taken'` log on each of the days 1..31. -/
def logs31 : List DoseLog :=
  (List.range 31).map (fun i => ⟨i, 1, 1, ⟨i + 1, 0⟩, "taken"⟩)

/-- **C3.** On 31 distinct dates, the mongoose server's series keeps the
most recent 30 dates (2..31), as the claim states — but the sqlite
variant's `ORDER BY date ASC LIMIT 30` keeps the oldest 30 dates
(1..30), so the truncation direction diverges between the two
implementations of the endpoint. -/
theorem analytics_truncation_divergence :
    (analyticsStats logs31).map DayStat.date = (List.range 30).map (fun i => i + 2)
    ∧ (analyticsStatsSqlite logs31).map DayStat.date = (List.range 30).map (fun i => i + 1)
    ∧ analyticsStatsSqlite logs31 ≠ analyticsStats logs31 := by
  refine ⟨by decide, by decide, by decide⟩

/-! ### C9: positivity of the daily series entries -/

/-- `upsertStat` preserves the entry bounds invariant. -/
lemma upsertStat_bounds (day : Nat) (b : Bool) (l : List DayStat)
    (h : ∀ e ∈ l, 1 ≤ e.total ∧ e.taken ≤ e.total) :
    ∀ e ∈ upsertStat day b l, 1 ≤ e.total ∧ e.taken ≤ e.total := by
  induction l with
  | nil =>
    intro e he
    simp only [upsertStat, List.mem_singleton] at he
    subst he
    constructor
    · exact Nat.le_refl 1
    · cases b <;> simp
  | cons s rest ih =>
    intro e he
    by_cases hd : s.date = day
    · simp only [upsertStat, hd, if_true, List.mem_cons] at he
      rcases he with rfl | he
      · have hs := h s (List.mem_cons_self _ _)
        refine ⟨Nat.le_add_left 1 s.total, ?_⟩
        cases b <;> simp <;> omega
      · exact h e (List.mem_cons_of_mem _ he)
    · simp only [upsertStat, hd, if_false, List.mem_cons] at he
      rcases he with rfl | he
      · exact h e (List.mem_cons_self _ _)
      · exact ih (fun x hx => h x (List.mem_cons_of_mem _ hx)) e he

/-- Every entry of the grouped stats satisfies the bounds. -/
lemma groupByDate_bounds (logs : List DoseLog) :
    ∀ e ∈ groupByDate logs, 1 ≤ e.total ∧ e.taken ≤ e.total := by
  have haux : ∀ (ls : List DoseLog) (acc : List DayStat),
      (∀ e ∈ acc, 1 ≤ e.total ∧ e.taken ≤ e.total) →
      ∀ e ∈ ls.foldl (fun acc log =>
        upsertStat log.taken_at.day (log.status == "taken") acc) acc,
        1 ≤ e.total ∧ e.taken ≤ e.total := by
    intro ls
    induction ls with
    | nil => intro acc hacc e he; exact hacc e he
    | cons l rest ih =>
      intro acc hacc e he
      exact ih _ (upsertStat_bounds _ _ _ hacc) e he
  exact haux logs [] (by simp)

/-- Membership is preserved backwards through `insertAscByDate`. -/
lemma mem_of_mem_insertAscByDate {e s : DayStat} {l : List DayStat}
    (h : e ∈ insertAscByDate s l) : e = s ∨ e ∈ l := by
  induction l with
  | nil => simpa [insertAscByDate] using h
  | cons t rest ih =>
    by_cases hle : s.date ≤ t.date
    · simp only [insertAscByDate, hle, if_true, List.mem_cons] at h
      rcases h with rfl | h
      · left; rfl
      · right; exact List.mem_cons.mpr h
    · simp only [insertAscByDate, hle, if_false, List.mem_cons] at h
      rcases h with rfl | h
      · right; exact List.mem_cons_self _ _
      · rcases ih h with rfl | h'
        · left; rfl
        · right; exact List.mem_cons_of_mem _ h'

/-- Membership is preserved backwards through the ascending sort. -/
lemma mem_of_mem_sortAscByDate {e : DayStat} {l : List DayStat}
    (h : e ∈ sortAscByDate l) : e ∈ l := by
  induction l with
  | nil => simp [sortAscByDate] at h
  | cons t rest ih =>
    rcases mem_of_mem_insertAscByDate (by simpa [sortAscByDate] using h) with rfl | h'
    · exact List.mem_cons_self _ _
    · exact List.mem_cons_of_mem _ (ih h')

/-- **C9.** Every entry of the daily completion series produced by
`GET /api/analytics` has `total ≥ 1` and `taken ≤ total`: an entry is
created only when a log exists for its date, and `taken` increments only
on `'taken'` logs.  Hence the streak computation's `total = 0` skip
branch is unreachable on server-produced data. -/
theorem analytics_entry_bounds (logs : List DoseLog) :
    ∀ e ∈ analyticsStats logs, 1 ≤ e.total ∧ e.taken ≤ e.total := by
  intro e he
  have h1 : e ∈ sortAscByDate (groupByDate logs) := by
    unfold analyticsStats at he
    exact List.mem_of_mem_drop he
  exact groupByDate_bounds logs e (mem_of_mem_sortAscByDate h1)

/-- Witness for C9 on one concrete log: the single produced entry is
`⟨day 5, total 1, taken 1⟩`, which satisfies the bounds. -/
theorem analytics_entry_bounds_witness :
    (⟨5, 1, 1⟩ : DayStat) ∈ analyticsStats [⟨0, 1, 1, ⟨5, 0⟩, "taken"⟩]
    ∧ (1 ≤ (⟨5, 1, 1⟩ : DayStat).total
        ∧ (⟨5, 1, 1⟩ : DayStat).taken ≤ (⟨5, 1, 1⟩ : DayStat).total) :=
  ⟨by decide, analytics_entry_bounds [⟨0, 1, 1, ⟨5, 0⟩, "taken"⟩] ⟨5, 1, 1⟩ (by decide)⟩

/-! ## Client streak statistic (`adherenceStats`, `src/App.tsx`)

The client sorts the fetched daily series descending by date
(`b.date.localeCompare(a.date)`) and walks it: a fully adherent day with
scheduled doses increments the streak, a day with scheduled doses that is
not fully adherent breaks the loop, and a zero-dose day is skipped. -/

/-- Insert into a date-descending list. -/
def insertDescByDate (s : DayStat) : List DayStat → List DayStat
  | [] => [s]
  | t :: rest => if t.date ≤ s.date then s :: t :: rest else t :: insertDescByDate s rest

/-- Descending sort by date (`sort((a, b) => b.date.localeCompare(a.date))`). -/
def sortDescByDate (l : List DayStat) : List DayStat := l.foldr insertDescByDate []

/-- The `for … break` loop over the descending-sorted series. -/
def streakLoop : List DayStat → Nat → Nat
  | [], streak => streak
  | d :: rest, streak =>
    if d.taken = d.total ∧ 0 < d.total then streakLoop rest (streak + 1)
    else if 0 < d.total then streak
    else streakLoop rest streak

/-- The client's streak statistic (`adherenceStats` in `App.tsx`),
including the empty-series early return. -/
def adherenceStreak (analytics : List DayStat) : Nat :=
  if analytics.isEmpty then 0 else streakLoop (sortDescByDate analytics) 0

/-- The spec's wording of the streak: scanning the series newest to
oldest, count the entries with `taken = total` and `total > 0` inside
the longest prefix free of a not-fully-adherent day with `total > 0`
(zero-dose days are skipped without breaking the streak). -/
def streakSpec (analytics : List DayStat) : Nat :=
  (((sortDescByDate analytics).takeWhile
      (fun d => !(decide (0 < d.total) && !(decide (d.taken = d.total))))).filter
    (fun d => decide (d.taken = d.total) && decide (0 < d.total))).length

/-- The loop agrees with the takeWhile/filter description of the scan. -/
lemma streakLoop_eq_scan (l : List DayStat) (n : Nat) :
    streakLoop l n = n +
      ((l.takeWhile (fun d => !(decide (0 < d.total) && !(decide (d.taken = d.total))))).filter
        (fun d => decide (d.taken = d.total) && decide (0 < d.total))).length := by
  induction l generalizing n with
  | nil => simp [streakLoop]
  | cons d rest ih =>
    by_cases hfull : d.taken = d.total ∧ 0 < d.total
    · rw [streakLoop, if_pos hfull, ih]
      simp [List.takeWhile_cons, List.filter_cons, hfull.1, hfull.2]
      omega
    · by_cases hpos : 0 < d.total
      · have hne : ¬ d.taken = d.total := fun h => hfull ⟨h, hpos⟩
        rw [streakLoop, if_neg hfull, if_pos hpos]
        simp [List.takeWhile_cons, hpos, hne]
      · have hz : d.total = 0 := by omega
        rw [streakLoop, if_neg hfull, if_neg hpos, ih]
        simp [List.takeWhile_cons, List.filter_cons, hpos]

/-- **C4.** The streak equals the number of consecutive entries, scanning
newest to oldest, with `taken = total` and `total > 0`, stopping at the
first `total > 0` entry that is not fully adherent and skipping
zero-total entries; in particular the series with the missed day newest
yields 0 and with the missed day oldest yields 3. -/
theorem streak_newest_to_oldest_scan :
    (∀ series : List DayStat, adherenceStreak series = streakSpec series)
    ∧ adherenceStreak [⟨1, 1, 1⟩, ⟨2, 1, 1⟩, ⟨3, 1, 1⟩, ⟨4, 1, 0⟩] = 0
    ∧ adherenceStreak [⟨1, 1, 0⟩, ⟨2, 1, 1⟩, ⟨3, 1, 1⟩, ⟨4, 1, 1⟩] = 3 := by
  refine ⟨fun series => ?_, by decide, by decide⟩
  cases series with
  | nil => rfl
  | cons d rest =>
    rw [adherenceStreak, if_neg (by simp)]
    rw [streakSpec]
    simpa using streakLoop_eq_scan (sortDescByDate (d :: rest)) 0

/-! ## Behaviour analysis delays (`GET /api/behavior-analysis`)

For every `'taken'` log whose medicine has a reminder time, the server
builds `reminderTime` from the log's own timestamp via
`setHours(remH, remM, 0, 0)` — i.e. the reminder time on the same
calendar day — and pushes `(takenTime - reminderTime) / 60000`; the
response carries `delays.slice(-50)`. -/

/-- The delay of one log in minutes, exactly as computed by the server:
the difference of the epoch timestamps divided by 60000 (JS float
division, embedded as `ℚ`). -/
def delayMinutes (hm : Nat × Nat) (takenAt : Instant) : ℚ :=
  ((takenAt.msInt - ((takenAt.day : Int) * 86400000
    + ((hm.1 * 60 + hm.2 : Nat) : Int) * 60000) : Int) : ℚ) / 60000

/-- The full delay sample list, in natural log order. -/
def delaySamples (logs : List DoseLog) (medicines : List Medicine) :
    List (String × ℚ) :=
  logs.filterMap (fun log =>
    if log.status == "taken" then
      match medicines.find? (fun m => m.id == log.medicine_id) with
      | some med =>
        match med.reminder_time with
        | some hm => some (med.name, delayMinutes hm log.taken_at)
        | none => none
      | none => none
    else none)

/-- The response's delay list: `delays.slice(-50)`. -/
def behaviorDelays (logs : List DoseLog) (medicines : List Medicine) :
    List (String × ℚ) :=
  (delaySamples logs medicines).drop ((delaySamples logs medicines).length - 50)

def medLis : Medicine :=
  ⟨1, 1, "Lisinopril", "10mg", "Daily", none, none, none, none, none, some (8, 0)⟩

/-- A dose logged at 08:15 local time. -/
def log0815 : DoseLog := ⟨1, 1, 1, ⟨737, 495 * 60000⟩, "taken"⟩

/-- A dose logged at 07:50 local time. -/
def log0750 : DoseLog := ⟨2, 1, 1, ⟨737, 470 * 60000⟩, "taken"⟩

/-- **C6.** Every delay sample equals `taken_at` minus the same-day
reminder time in minutes (the calendar day cancels, and the value may be
negative); a dose at 08:15 against reminder time 08:00 yields +15 and
one at 07:50 yields −10; and the returned list is the most recent ≤ 50
samples (a suffix of the full list in natural log order). -/
theorem behavior_delay_samples :
    (∀ (hm : Nat × Nat) (t : Instant),
      delayMinutes hm t = ((t.msOfDay : ℚ) - ((hm.1 * 60 + hm.2 : Nat) : ℚ) * 60000) / 60000)
    ∧ behaviorDelays [log0815] [medLis] = [("Lisinopril", 15)]
    ∧ behaviorDelays [log0750] [medLis] = [("Lisinopril", -10)]
    ∧ (∀ (logs : List DoseLog) (medicines : List Medicine),
        (behaviorDelays logs medicines).length ≤ 50
        ∧ (behaviorDelays logs medicines).IsSuffix (delaySamples logs medicines)) := by
  refine ⟨fun hm t => ?_, ?_, ?_, fun logs medicines => ⟨?_, ?_⟩⟩
  · rw [delayMinutes, Instant.msInt]
    push_cast
    ring_nf
  · have h1 : delaySamples [log0815] [medLis]
        = [("Lisinopril", delayMinutes (8, 0) log0815.taken_at)] := rfl
    have h2 : delayMinutes (8, 0) log0815.taken_at = 15 := by
      rw [delayMinutes, Instant.msInt]
      norm_num [log0815]
    unfold behaviorDelays
    rw [h1, h2]
    rfl
  · have h1 : delaySamples [log0750] [medLis]
        = [("Lisinopril", delayMinutes (8, 0) log0750.taken_at)] := rfl
    have h2 : delayMinutes (8, 0) log0750.taken_at = -10 := by
      rw [delayMinutes, Instant.msInt]
      norm_num [log0750]
    unfold behaviorDelays
    rw [h1, h2]
    rfl
  · rw [behaviorDelays, List.length_drop]
    omega
  · exact List.drop_suffix _ _

/-! ## REST layer over the record store

The store is modelled as the two row lists; every handler receives the
authenticated user's id (`req.user.id`).  Creation endpoints spread the
request body and override `user_id` with the requester's id; the store
assigns the fresh row id. -/

/-- The record store: all `Medicine` and `DoseLog` rows. -/
structure DB where
  medicines : List Medicine
  logs : List DoseLog
deriving DecidableEq, Repr

/-- `GET /api/medicines`: `Medicine.find({ user_id: req.user.id })`. -/
def getMedicines (userId : Nat) (db : DB) : List Medicine :=
  db.medicines.filter (fun m => m.user_id == userId)

/-- Insert into a `taken_at`-descending list (ISO strings compare
lexicographically, i.e. chronologically). -/
def insertDescByTakenAt (x : DoseLog) : List DoseLog → List DoseLog
  | [] => [x]
  | y :: rest =>
    if y.taken_at.msInt ≤ x.taken_at.msInt then x :: y :: rest
    else y :: insertDescByTakenAt x rest

/-- `GET /api/logs`: the user's logs sorted `taken_at` descending (the
`medicine_name` join decorates each row and is omitted here). -/
def getLogs (userId : Nat) (db : DB) : List DoseLog :=
  (db.logs.filter (fun l => l.user_id == userId)).foldr insertDescByTakenAt []

/-- `POST /api/logs`: `Log.create({ ...req.body, user_id: req.user.id })`
— the body's `medicine_id` is stored unvalidated. -/
def postLog (userId newId medicine_id : Nat) (taken_at : Instant)
    (status : String) (db : DB) : DB × DoseLog :=
  let newLog : DoseLog := ⟨newId, medicine_id, userId, taken_at, status⟩
  (⟨db.medicines, db.logs ++ [newLog]⟩, newLog)

/-- `POST /api/medicines`:
`Medicine.create({ ...req.body, user_id: req.user.id })`. -/
def postMedicine (userId newId : Nat) (body : Medicine) (db : DB) : DB × Medicine :=
  let newMed : Medicine := { body with id := newId, user_id := userId }
  (⟨db.medicines ++ [newMed], db.logs⟩, newMed)

/-- `POST /api/medicines/:id/snooze`: compute
`new Date(Date.now() + minutes * 60000)`, persist it on the medicine
matched by `(_id, user_id)`, and respond `{success, snoozed_until}`
unconditionally. -/
def snoozeMedicine (userId medId : Nat) (minutes nowMs : Int) (db : DB) :
    DB × Int :=
  let snoozedUntil : Int := nowMs + minutes * 60000
  (⟨db.medicines.map (fun m =>
      if m.id = medId ∧ m.user_id = userId then
        { m with snoozed_until := some snoozedUntil }
      else m),
    db.logs⟩,
   snoozedUntil)

/-- `DELETE /api/medicines/:id` in `server.ts` (and the sqlite variant
`part_001`): first `Log.deleteMany({ medicine_id, user_id })`, then
`Medicine.deleteOne({ _id, user_id })`; respond 200 when a medicine row
was deleted, else 404.  `_id` is unique, so `deleteOne` removes every
matching row. -/
def deleteMedicine (userId medId : Nat) (db : DB) : DB × Nat :=
  let logs' := db.logs.filter (fun l => !((l.medicine_id == medId) && (l.user_id == userId)))
  let deletedCount := (db.medicines.filter (fun m => (m.id == medId) && (m.user_id == userId))).length
  let medicines' := db.medicines.filter (fun m => !((m.id == medId) && (m.user_id == userId)))
  (⟨medicines', logs'⟩, if 0 < deletedCount then 200 else 404)

/-- `DELETE /api/medicines/:id` in the legacy sqlite variant
(`part_002`): delete only the medicine row and always respond success —
no cascade, no 404. -/
def deleteMedicineLegacy (userId medId : Nat) (db : DB) : DB × Nat :=
  (⟨db.medicines.filter (fun m => !((m.id == medId) && (m.user_id == userId))), db.logs⟩, 200)

/-! ### C8: snooze -/

/-- **C8.** For a medicine owned by the requester and any integer
duration (zero and negative included), the snooze endpoint persists
`now + minutes` minutes as `snoozed_until`, leaves every other field and
every other row unchanged, and responds with that same timestamp. -/
theorem snooze_persists_now_plus_minutes
    (userId medId : Nat) (minutes nowMs : Int) (db : DB) :
    (snoozeMedicine userId medId minutes nowMs db).2 = nowMs + minutes * 60000
    ∧ (snoozeMedicine userId medId minutes nowMs db).1.logs = db.logs
    ∧ (∀ m ∈ db.medicines, m.id = medId → m.user_id = userId →
        { m with snoozed_until := some (nowMs + minutes * 60000) }
          ∈ (snoozeMedicine userId medId minutes nowMs db).1.medicines)
    ∧ (∀ m ∈ db.medicines, ¬(m.id = medId ∧ m.user_id = userId) →
        m ∈ (snoozeMedicine userId medId minutes nowMs db).1.medicines) := by
  refine ⟨rfl, rfl, ?_, ?_⟩
  · intro m hm h1 h2
    have hmem := List.mem_map_of_mem (fun m : Medicine =>
      if m.id = medId ∧ m.user_id = userId then
        { m with snoozed_until := some (nowMs + minutes * 60000) }
      else m) hm
    simpa [snoozeMedicine, h1, h2] using hmem
  · intro m hm hnot
    have hmem := List.mem_map_of_mem (fun m : Medicine =>
      if m.id = medId ∧ m.user_id = userId then
        { m with snoozed_until := some (nowMs + minutes * 60000) }
      else m) hm
    simpa [snoozeMedicine, hnot] using hmem

def medC8 : Medicine :=
  ⟨3, 4, "Atorvastatin", "20mg", "Daily", none, none, none, none, none, some (21, 0)⟩

def dbC8 : DB := ⟨[medC8], []⟩

/-- Witness for C8 with a negative duration (−5 minutes): the timestamp
`now − 5 min` is persisted and echoed. -/
theorem snooze_persists_now_plus_minutes_witness :
    (snoozeMedicine 4 3 (-5) 1000000 dbC8).2 = 1000000 + (-5) * 60000
    ∧ { medC8 with snoozed_until := some (1000000 + (-5) * 60000) }
        ∈ (snoozeMedicine 4 3 (-5) 1000000 dbC8).1.medicines :=
  ⟨(snooze_persists_now_plus_minutes 4 3 (-5) 1000000 dbC8).1,
   (snooze_persists_now_plus_minutes 4 3 (-5) 1000000 dbC8).2.2.1 medC8
     (by decide) (by decide) (by decide)⟩

/-! ### C5: delete with cascade -/

def medC5 : Medicine :=
  ⟨7, 1, "OldMed", "5mg", "Daily", none, none, none, none, none, some (8, 0)⟩

def logC5 : DoseLog := ⟨1, 7, 1, ⟨10, 0⟩, "taken"⟩

def dbC5 : DB := ⟨[medC5], [logC5]⟩

/-- Counterexample to C5 as a statement about every DELETE handler in
the repository: the legacy sqlite variant (`part_002`) removes the
medicine row but keeps the dose log referencing it — no cascade — and
answers success. -/
theorem legacy_delete_leaves_dose_logs :
    (deleteMedicineLegacy 1 7 dbC5).2 = 200
    ∧ logC5 ∈ (deleteMedicineLegacy 1 7 dbC5).1.logs
    ∧ logC5.medicine_id = 7
    ∧ ∀ m ∈ (deleteMedicineLegacy 1 7 dbC5).1.medicines, m.id ≠ 7 := by decide

/-- After the delete, no log of the requesting user references the id. -/
lemma deleteMedicine_no_matching_log (userId medId : Nat) (db : DB) :
    ∀ l ∈ (deleteMedicine userId medId db).1.logs,
      ¬(l.medicine_id = medId ∧ l.user_id = userId) := by
  intro l hl hcontra
  have := (List.mem_filter.mp hl).2
  simp [hcontra.1, hcontra.2] at this

/-- When the requester owns no medicine with the id, the status is 404. -/
lemma deleteMedicine_404_of_not_owned (userId medId : Nat) (db : DB)
    (hno : ∀ m ∈ db.medicines, ¬(m.id = medId ∧ m.user_id = userId)) :
    (deleteMedicine userId medId db).2 = 404 := by
  have hnil : db.medicines.filter
      (fun m => (m.id == medId) && (m.user_id == userId)) = [] := by
    rw [List.filter_eq_nil_iff]
    intro m hm
    have := hno m hm
    simpa using this
  simp [deleteMedicine, hnil]

/-- Other users' medicine rows survive the delete. -/
lemma deleteMedicine_keeps_other_users_meds (userId medId : Nat) (db : DB) :
    ∀ m ∈ db.medicines, m.user_id ≠ userId →
      m ∈ (deleteMedicine userId medId db).1.medicines := by
  intro m hm hne
  exact List.mem_filter.mpr ⟨hm, by simp [hne]⟩

/-- Other users' dose logs survive the delete. -/
lemma deleteMedicine_keeps_other_users_logs (userId medId : Nat) (db : DB) :
    ∀ l ∈ db.logs, l.user_id ≠ userId →
      l ∈ (deleteMedicine userId medId db).1.logs := by
  intro l hl hne
  exact List.mem_filter.mpr ⟨hl, by simp [hne]⟩

/-- **C5 (amended).** In `server.ts` and the sqlite variant `part_001`,
deleting a medicine removes every dose log of the requesting user that
references it, responds 404 when the user owns no such medicine, and
never touches other users' medicines or logs. -/
theorem delete_medicine_cascade_and_404 (userId medId : Nat) (db : DB) :
    (∀ l ∈ (deleteMedicine userId medId db).1.logs,
      ¬(l.medicine_id = medId ∧ l.user_id = userId))
    ∧ ((∀ m ∈ db.medicines, ¬(m.id = medId ∧ m.user_id = userId)) →
        (deleteMedicine userId medId db).2 = 404)
    ∧ (∀ m ∈ db.medicines, m.user_id ≠ userId →
        m ∈ (deleteMedicine userId medId db).1.medicines)
    ∧ (∀ l ∈ db.logs, l.user_id ≠ userId →
        l ∈ (deleteMedicine userId medId db).1.logs) :=
  ⟨deleteMedicine_no_matching_log userId medId db,
   deleteMedicine_404_of_not_owned userId medId db,
   deleteMedicine_keeps_other_users_meds userId medId db,
   deleteMedicine_keeps_other_users_logs userId medId db⟩

def medC5b : Medicine :=
  ⟨9, 2, "OtherUsers", "5mg", "Daily", none, none, none, none, none, none⟩

def logC5b : DoseLog := ⟨4, 9, 2, ⟨11, 0⟩, "taken"⟩

def dbC5b : DB := ⟨[medC5b], [logC5b]⟩

/-- Witness for the amended C5: user 1 deletes id 9, which only user 2
owns — the response is 404 and user 2's medicine and log survive. -/
theorem delete_medicine_cascade_and_404_witness :
    (deleteMedicine 1 9 dbC5b).2 = 404
    ∧ medC5b ∈ (deleteMedicine 1 9 dbC5b).1.medicines
    ∧ logC5b ∈ (deleteMedicine 1 9 dbC5b).1.logs :=
  ⟨(delete_medicine_cascade_and_404 1 9 dbC5b).2.1 (by decide),
   (delete_medicine_cascade_and_404 1 9 dbC5b).2.2.1 medC5b (by decide) (by decide),
   (delete_medicine_cascade_and_404 1 9 dbC5b).2.2.2 logC5b (by decide) (by decide)⟩

/-! ### C10: the 404 path is not state-preserving -/

/-- **C10.** `DELETE /api/medicines/:id` deletes the matching dose logs
before checking that a medicine was deleted, so a request for an id the
user does not own returns 404 while the user's logs referencing that id
are already gone. -/
theorem delete_removes_logs_despite_404
    (userId medId : Nat) (db : DB) (l : DoseLog)
    (hno : ∀ m ∈ db.medicines, ¬(m.id = medId ∧ m.user_id = userId))
    (_hl : l ∈ db.logs) (hlm : l.medicine_id = medId) (hlu : l.user_id = userId) :
    (deleteMedicine userId medId db).2 = 404
    ∧ l ∉ (deleteMedicine userId medId db).1.logs := by
  constructor
  · exact deleteMedicine_404_of_not_owned userId medId db hno
  · intro hmem
    exact deleteMedicine_no_matching_log userId medId db l hmem ⟨hlm, hlu⟩

def logC10 : DoseLog := ⟨5, 7, 1, ⟨12, 0⟩, "taken"⟩

def dbC10 : DB := ⟨[], [logC10]⟩

/-- Witness for C10: user 1 owns no medicine 7 but has a log referencing
it; the DELETE answers 404 yet the log is removed. -/
theorem delete_removes_logs_despite_404_witness :
    (deleteMedicine 1 7 dbC10).2 = 404
    ∧ logC10 ∉ (deleteMedicine 1 7 dbC10).1.logs :=
  delete_removes_logs_despite_404 1 7 dbC10 logC10
    (by simp [dbC10]) (by decide) (by decide) (by decide)

/-! ### C7: per-user scoping of reads and writes -/

/-- Membership is preserved backwards through `insertDescByTakenAt`. -/
lemma mem_of_mem_insertDescByTakenAt {e x : DoseLog} {l : List DoseLog}
    (h : e ∈ insertDescByTakenAt x l) : e = x ∨ e ∈ l := by
  induction l with
  | nil => simpa [insertDescByTakenAt] using h
  | cons y rest ih =>
    by_cases hle : y.taken_at.msInt ≤ x.taken_at.msInt
    · simp only [insertDescByTakenAt, hle, if_true, List.mem_cons] at h
      rcases h with rfl | h
      · left; rfl
      · right; exact List.mem_cons.mpr h
    · simp only [insertDescByTakenAt, hle, if_false, List.mem_cons] at h
      rcases h with rfl | h
      · right; exact List.mem_cons_self _ _
      · rcases ih h with rfl | h'
        · left; rfl
        · right; exact List.mem_cons_of_mem _ h'

/-- Every row returned by `GET /api/logs` comes from the user filter. -/
lemma mem_filter_of_mem_getLogs {userId : Nat} {db : DB} {e : DoseLog}
    (h : e ∈ getLogs userId db) :
    e ∈ db.logs.filter (fun l => l.user_id == userId) := by
  rw [getLogs] at h
  generalize hq : db.logs.filter (fun l => l.user_id == userId) = q at h ⊢
  clear hq
  induction q with
  | nil => simp at h
  | cons y rest ih =>
    rcases mem_of_mem_insertDescByTakenAt (by simpa using h) with rfl | h'
    · exact List.mem_cons_self _ _
    · exact List.mem_cons_of_mem _ (ih h')

def medC7 : Medicine :=
  ⟨2, 2, "ForeignMed", "5mg", "Daily", none, none, none, none, none, none⟩

def dbC7 : DB := ⟨[medC7], []⟩

/-- Counterexample to the second half of C7: `POST /api/logs` stores the
body's `medicine_id` unvalidated, so user 1 creates a dose log that
references medicine 2, which is owned by user 2 and not by user 1. -/
theorem post_log_accepts_foreign_medicine :
    (postLog 1 10 2 ⟨3, 0⟩ "taken" dbC7).2.user_id = 1
    ∧ (postLog 1 10 2 ⟨3, 0⟩ "taken" dbC7).2.medicine_id = 2
    ∧ (postLog 1 10 2 ⟨3, 0⟩ "taken" dbC7).2
        ∈ (postLog 1 10 2 ⟨3, 0⟩ "taken" dbC7).1.logs
    ∧ ∀ m ∈ (postLog 1 10 2 ⟨3, 0⟩ "taken" dbC7).1.medicines,
        m.id = 2 → m.user_id ≠ 1 := by decide

/-- **C7 (amended).** Every modelled Medicine/DoseLog read returns only
the requesting user's rows and every modelled write touches only the
requesting user's rows (creations stamp the requester's id) — but
`POST /api/logs` does not check that the body's `medicine_id` references
a medicine owned by the requester. -/
theorem api_rows_scoped_to_user
    (userId newId mid : Nat) (t : Instant) (st : String)
    (minutes nowMs : Int) (body : Medicine) (db : DB) :
    (∀ m ∈ getMedicines userId db, m.user_id = userId)
    ∧ (∀ l ∈ getLogs userId db, l.user_id = userId)
    ∧ (postLog userId newId mid t st db).2.user_id = userId
    ∧ (∀ l ∈ db.logs, l ∈ (postLog userId newId mid t st db).1.logs)
    ∧ (postMedicine userId newId body db).2.user_id = userId
    ∧ (∀ m ∈ db.medicines, m ∈ (postMedicine userId newId body db).1.medicines)
    ∧ (∀ m ∈ db.medicines, m.user_id ≠ userId →
        m ∈ (deleteMedicine userId mid db).1.medicines)
    ∧ (∀ l ∈ db.logs, l.user_id ≠ userId →
        l ∈ (deleteMedicine userId mid db).1.logs)
    ∧ (∀ m ∈ db.medicines, m.user_id ≠ userId →
        m ∈ (snoozeMedicine userId mid minutes nowMs db).1.medicines) := by
  refine ⟨?_, ?_, rfl, ?_, rfl, ?_, ?_, ?_, ?_⟩
  · intro m hm
    have := (List.mem_filter.mp hm).2
    simpa using this
  · intro l hl
    have := (List.mem_filter.mp (mem_filter_of_mem_getLogs hl)).2
    simpa using this
  · intro l hl
    exact List.mem_append_left _ hl
  · intro m hm
    exact List.mem_append_left _ hm
  · exact deleteMedicine_keeps_other_users_meds userId mid db
  · exact deleteMedicine_keeps_other_users_logs userId mid db
  · intro m hm hne
    have hmem := List.mem_map_of_mem (fun m : Medicine =>
      if m.id = mid ∧ m.user_id = userId then
        { m with snoozed_until := some (nowMs + minutes * 60000) }
      else m) hm
    have hnot : ¬(m.id = mid ∧ m.user_id = userId) := fun hc => hne hc.2
    simpa [snoozeMedicine, hnot] using hmem

def medC7b : Medicine :=
  ⟨11, 1, "Mine", "5mg", "Daily", none, none, none, none, none, none⟩

def medC7c : Medicine :=
  ⟨12, 2, "Theirs", "5mg", "Daily", none, none, none, none, none, none⟩

def dbC7b : DB := ⟨[medC7b, medC7c], [⟨6, 11, 1, ⟨4, 0⟩, "taken"⟩, ⟨7, 12, 2, ⟨4, 0⟩, "taken"⟩]⟩

/-- Witness for the amended C7: with two users' rows in the store, user
1's medicine read returns only their row, and user 2's medicine survives
user 1's delete. -/
theorem api_rows_scoped_to_user_witness :
    ((⟨6, 11, 1, ⟨4, 0⟩, "taken"⟩ : DoseLog) ∈ getLogs 1 dbC7b →
      (⟨6, 11, 1, ⟨4, 0⟩, "taken"⟩ : DoseLog).user_id = 1)
    ∧ medC7c ∈ (deleteMedicine 1 12 dbC7b).1.medicines
    ∧ (postLog 1 20 11 ⟨5, 0⟩ "taken" dbC7b).2.user_id = 1 :=
  ⟨fun h => (api_rows_scoped_to_user 1 20 12 ⟨5, 0⟩ "taken" 15 0 medC7b dbC7b).2.1 _ h,
   (api_rows_scoped_to_user 1 20 12 ⟨5, 0⟩ "taken" 15 0 medC7b dbC7b).2.2.2.2.2.2.1 medC7c
     (by decide) (by decide),
   (api_rows_scoped_to_user 1 20 11 ⟨5, 0⟩ "taken" 15 0 medC7b dbC7b).2.2.1⟩

end MedTracker
